import Mathlib

/-!
Verification development for the THCF website scraper and content-preparation
pipeline (scrape.mjs, classify-page.mjs, extract-fields.mjs,
prepare-content.mjs).  The JavaScript sources are shallowly embedded below:
pure string manipulation becomes functions over List Char, the cheerio DOM
becomes a mutual inductive of nodes and forests, and the crawl scheduler
becomes an explicit state machine with a small-step relation plus a
terminating functional model of the main dequeue loop.
-/

/-! ## Basic character and string helpers (JS string semantics) -/

def isWsChar (c : Char) : Bool :=
  c = ' ' || c = '\n' || c = '\t' || c = '\r'

def trimLeftL (l : List Char) : List Char := l.dropWhile isWsChar

def trimRightL (l : List Char) : List Char := (l.reverse.dropWhile isWsChar).reverse

def trimL (l : List Char) : List Char := trimRightL (trimLeftL l)

/-- Model of JS String.prototype.trim. -/
def jsTrim (s : String) : String := String.mk (trimL s.toList)

def lowerL (l : List Char) : List Char := l.map Char.toLower

def lowerS (s : String) : String := String.mk (lowerL s.toList)

/-- Does the pattern occur at the start of the character list? -/
def startsWithL : List Char → List Char → Bool
  | [], _ => true
  | _ :: _, [] => false
  | p :: ps, c :: cs => p = c && startsWithL ps cs

def endsWithL (pat l : List Char) : Bool := startsWithL pat.reverse l.reverse

def lowerStartsWith (pat l : List Char) : Bool := startsWithL (lowerL pat) (lowerL l)

def lowerEndsWith (pat l : List Char) : Bool := endsWithL (lowerL pat) (lowerL l)

/-- Replace every '/' by "--" (the global regex replace in slugFromUrl). -/
def replSlashes : List Char → List Char
  | [] => []
  | c :: rest => if c = '/' then '-' :: '-' :: replSlashes rest else c :: replSlashes rest

/-! ## Model of the WHATWG URL constructor

The URL constructor is an external platform API.  It is modelled here for the
href shapes the scraper encounters: absolute http/https URLs,
protocol-relative references, and root-relative paths resolved against the
fixed base https://www.thcf.org.  Other relative forms, percent-encoding,
dot-segment normalization and default-port elision are not modelled; hrefs
outside the modelled shapes behave like parse failures (the constructor
throwing), which normalizeUrl turns into null.
-/

structure URLRec where
  scheme : String
  hostname : String
  port : String
  pathname : String
  search : String
  fragment : String
deriving DecidableEq

def parseAuthPath (scheme : String) (rest : List Char) (frag : List Char) : Option URLRec :=
  let auth := rest.takeWhile (fun c => c ≠ '/' && c ≠ '?')
  let tl := rest.drop auth.length
  let hostPart := auth.takeWhile (fun c => c ≠ ':')
  let portPart := (auth.dropWhile (fun c => c ≠ ':')).drop 1
  if hostPart = [] then none
  else
    let pathRaw := tl.takeWhile (fun c => c ≠ '?')
    let query := tl.drop pathRaw.length
    some { scheme := scheme
           hostname := String.mk (lowerL hostPart)
           port := String.mk portPart
           pathname := if pathRaw = [] then "/" else String.mk pathRaw
           search := String.mk query
           fragment := String.mk frag }

def parseAbsURL (s : String) : Option URLRec :=
  let l := s.toList
  let pre := l.takeWhile (fun c => c ≠ '#')
  let frag := (l.dropWhile (fun c => c ≠ '#')).drop 1
  if lowerStartsWith "https://".toList pre then
    parseAuthPath "https" (pre.drop 8) frag
  else if lowerStartsWith "http://".toList pre then
    parseAuthPath "http" (pre.drop 7) frag
  else none

/-- Model of the two-argument URL constructor, new URL(href, base). -/
def newURL (href : String) (base : String) : Option URLRec :=
  match parseAbsURL href with
  | some u => some u
  | none =>
    match parseAbsURL base with
    | none => none
    | some b =>
      let l := href.toList
      if startsWithL "//".toList l then
        parseAbsURL (b.scheme ++ ":" ++ href)
      else if startsWithL "/".toList l then
        let pre := l.takeWhile (fun c => c ≠ '#')
        let frag := (l.dropWhile (fun c => c ≠ '#')).drop 1
        let pathRaw := pre.takeWhile (fun c => c ≠ '?')
        let query := pre.drop pathRaw.length
        some { b with
               pathname := String.mk pathRaw
               search := String.mk query
               fragment := String.mk frag }
      else none

/-! ## URL Normalizer (scrape.mjs, normalizeUrl) -/

def BASE_URL : String := "https://www.thcf.org"

/-- JS: url.pathname.replace(slash-at-end, empty) with empty falling back to "/". -/
def stripTrailSlash (p : String) : String :=
  let l := p.toList
  let l2 := if endsWithL ['/'] l then l.dropLast else l
  if l2 = [] then "/" else String.mk l2

def urlOrigin (u : URLRec) : String :=
  u.scheme ++ "://" ++ u.hostname ++ (if u.port = "" then "" else ":" ++ u.port)

def bannedExts : List String :=
  [".pdf", ".xls", ".xlsx", ".doc", ".docx", ".zip", ".png", ".jpg", ".jpeg",
   ".gif", ".svg", ".webp", ".mp4", ".mp3"]

def hasBannedExt (p : String) : Bool :=
  bannedExts.any (fun e => lowerEndsWith e.toList p.toList)

/-- Embedding of normalizeUrl from scrape.mjs. -/
def normalizeUrl (href : String) : Option String :=
  match newURL href BASE_URL with
  | none => none
  | some url =>
    if url.hostname ≠ "www.thcf.org" ∧ url.hostname ≠ "thcf.org" then none
    else
      let pathname := stripTrailSlash url.pathname
      if hasBannedExt pathname then none
      else some (urlOrigin url ++ pathname)

/-! ## Storage-key slug (scrape.mjs, slugFromUrl) -/

/-- Slug computation on the parsed pathname: strip one trailing slash with
empty falling back to "index", strip the leading slash, replace the remaining
slashes by "--", with empty falling back to "index". -/
def slugOfPathname (l : List Char) : String :=
  let stripped := if endsWithL ['/'] l then l.dropLast else l
  let pathname := if stripped = [] then "index".toList else stripped
  let noLead := if startsWithL ['/'] pathname then pathname.drop 1 else pathname
  let replaced := replSlashes noLead
  if replaced = [] then "index" else String.mk replaced

/-- Embedding of slugFromUrl from scrape.mjs; none models the URL constructor
throwing on an unparseable input. -/
def slugFromUrl (url : String) : Option String :=
  match parseAbsURL url with
  | none => none
  | some u => some (slugOfPathname u.pathname.toList)

/-! ## Content Classifier (classify-page.mjs) -/

def patNewsItem (p : String) : Bool :=
  startsWithL "/news/".toList p.toList &&
    (let rest := p.toList.drop 6
     !rest.isEmpty && rest.all (fun c => c ≠ '/'))

def patAboutNews (p : String) : Bool := startsWithL "/about/news".toList p.toList

def patScholarshipItem (p : String) : Bool :=
  startsWithL "/scholarships/".toList p.toList &&
    (let rest := p.toList.drop 14
     !rest.isEmpty && rest.all (fun c => c ≠ '/'))

def patSchDirectory (p : String) : Bool :=
  startsWithL "/students/scholarships/scholarship-directory".toList p.toList

def patStudentsSch (p : String) : Bool :=
  startsWithL "/students/scholarships".toList p.toList

def patStudents (p : String) : Bool := startsWithL "/students".toList p.toList

def patGrantItem (p : String) : Bool :=
  startsWithL "/grants/".toList p.toList &&
    (let rest := p.toList.drop 8
     !rest.isEmpty && rest.all (fun c => c ≠ '/'))

def patPastRecipients (p : String) : Bool :=
  startsWithL "/grant-seekers/past-recipients".toList p.toList

def patAboutStaff (p : String) : Bool := p = "/about/staff"

def patAboutBoard (p : String) : Bool := p = "/about/board"

/-- The ordered rule list PATTERNS from classify-page.mjs. -/
def PATTERNS : List ((String → Bool) × String) :=
  [(patNewsItem, "news"),
   (patAboutNews, "news-listing"),
   (patScholarshipItem, "scholarship"),
   (patSchDirectory, "scholarship-listing"),
   (patStudentsSch, "page"),
   (patStudents, "page"),
   (patGrantItem, "grant"),
   (patPastRecipients, "grant-listing"),
   (patAboutStaff, "staff-listing"),
   (patAboutBoard, "board-listing")]

/-- The for-loop over PATTERNS: first matching rule wins, default "page". -/
def classifyGo : List ((String → Bool) × String) → String → String
  | [], _ => "page"
  | (pat, ty) :: rest, p => if pat p then ty else classifyGo rest p

/-- The pathname computation in classifyPage: parse the URL if possible,
falling back to treating the input itself as a path, then strip one trailing
slash with the root normalizing to "/". -/
def pathnameForClassify (url : String) : String :=
  match parseAbsURL url with
  | some u => stripTrailSlash u.pathname
  | none => stripTrailSlash url

/-- Embedding of classifyPage from classify-page.mjs. -/
def classifyPage (url : String) : String :=
  classifyGo PATTERNS (pathnameForClassify url)

/-! ## Supporting lemmas: character membership through the URL parser -/

lemma noChar_takeWhile_ne (c : Char) (l : List Char) :
    c ∉ l.takeWhile (fun x => x ≠ c) := by
  intro h
  have := List.mem_takeWhile_imp h
  simp at this

lemma mem_of_mem_takeWhile {p : Char → Bool} {l : List Char} {a : Char}
    (h : a ∈ l.takeWhile p) : a ∈ l := (List.takeWhile_sublist p).subset h

lemma prop_of_mem_takeWhile {p : Char → Bool} {l : List Char} {a : Char}
    (h : a ∈ l.takeWhile p) : p a = true := List.mem_takeWhile_imp h

lemma mem_of_mem_dropWhile {p : Char → Bool} {l : List Char} {a : Char}
    (h : a ∈ l.dropWhile p) : a ∈ l := (List.dropWhile_suffix p).subset h

lemma toList_append (s t : String) : (s ++ t).toList = s.toList ++ t.toList := by
  cases s; cases t; rfl

lemma parseAuthPath_clean {scheme : String} {rest frag : List Char} {u : URLRec}
    (hu : parseAuthPath scheme rest frag = some u) (hrest : '#' ∉ rest) :
    u.scheme = scheme ∧
    '#' ∉ u.pathname.toList ∧ '?' ∉ u.pathname.toList ∧
    '#' ∉ u.port.toList ∧ '?' ∉ u.port.toList := by
  unfold parseAuthPath at hu
  dsimp only at hu
  set auth := rest.takeWhile (fun c => c ≠ '/' && c ≠ '?') with hauth
  split at hu
  · exact absurd hu (by simp)
  · have hauthSub : auth ⊆ rest := (List.takeWhile_sublist _).subset
    have hauthNoQ : '?' ∉ auth := by
      intro hmem
      have := prop_of_mem_takeWhile hmem
      simp at this
    have htail : rest.drop auth.length ⊆ rest := List.drop_subset _ _
    have hportSub : (auth.dropWhile (fun c => c ≠ ':')).drop 1 ⊆ auth := by
      intro a ha
      exact mem_of_mem_dropWhile (List.drop_subset _ _ ha)
    cases hu
    refine ⟨rfl, ?_, ?_, ?_, ?_⟩
    · show '#' ∉ (if _ = ([] : List Char) then "/" else _).toList
      split
      · decide
      · intro hmem
        exact hrest (htail (mem_of_mem_takeWhile hmem))
    · show '?' ∉ (if _ = ([] : List Char) then "/" else _).toList
      split
      · decide
      · exact noChar_takeWhile_ne '?' _
    · intro hmem
      exact hrest (hauthSub (hportSub hmem))
    · intro hmem
      have h2 := prop_of_mem_takeWhile (show '?' ∈ rest.takeWhile (fun c => c ≠ '/' && c ≠ '?') from hportSub hmem)
      simp at h2

lemma parseAbsURL_clean {s : String} {u : URLRec} (h : parseAbsURL s = some u) :
    (u.scheme = "https" ∨ u.scheme = "http") ∧
    '#' ∉ u.pathname.toList ∧ '?' ∉ u.pathname.toList ∧
    '#' ∉ u.port.toList ∧ '?' ∉ u.port.toList := by
  unfold parseAbsURL at h
  dsimp only at h
  have hpre : '#' ∉ s.toList.takeWhile (fun c => c ≠ '#') := noChar_takeWhile_ne '#' _
  split at h
  · have := parseAuthPath_clean h (fun hm => hpre (List.drop_subset _ _ hm))
    exact ⟨Or.inl this.1, this.2⟩
  · split at h
    · have := parseAuthPath_clean h (fun hm => hpre (List.drop_subset _ _ hm))
      exact ⟨Or.inr this.1, this.2⟩
    · exact absurd h (by simp)

lemma newURL_clean {href base : String} {u : URLRec} (h : newURL href base = some u) :
    (u.scheme = "https" ∨ u.scheme = "http") ∧
    '#' ∉ u.pathname.toList ∧ '?' ∉ u.pathname.toList ∧
    '#' ∉ u.port.toList ∧ '?' ∉ u.port.toList := by
  unfold newURL at h
  split at h
  · cases h
    exact parseAbsURL_clean (by assumption)
  · rename_i heq
    split at h
    · exact absurd h (by simp)
    · rename_i b hb
      dsimp only at h
      split at h
      · exact parseAbsURL_clean h
      · split at h
        · have hbase := parseAbsURL_clean hb
          have hpre : '#' ∉ href.toList.takeWhile (fun c => c ≠ '#') := noChar_takeWhile_ne '#' _
          cases h
          refine ⟨hbase.1, ?_, ?_, hbase.2.2.2.1, hbase.2.2.2.2⟩
          · intro hmem
            exact hpre (mem_of_mem_takeWhile hmem)
          · exact noChar_takeWhile_ne '?' _
        · exact absurd h (by simp)

lemma stripTrailSlash_noChar {c : Char} (hc : c ≠ '/') {p : String}
    (h : c ∉ p.toList) : c ∉ (stripTrailSlash p).toList := by
  unfold stripTrailSlash
  dsimp only
  have hsub : ∀ l : List Char, l ⊆ p.toList →
      c ∉ (if l = [] then "/" else String.mk l).toList := by
    intro l hl
    split
    · simpa using hc
    · intro hmem
      exact h (hl hmem)
  split
  · exact hsub _ (List.dropLast_sublist (l := p.toList)).subset
  · exact hsub _ (fun a ha => ha)

lemma stripTrailSlash_concat (p : String) :
    stripTrailSlash (p ++ "/") = if p = "" then "/" else p := by
  unfold stripTrailSlash
  dsimp only
  have hl : (p ++ "/").toList = p.toList ++ ['/'] := toList_append p "/"
  rw [hl]
  have hends : endsWithL ['/'] (p.toList ++ ['/']) = true := by
    unfold endsWithL
    rw [List.reverse_append]
    rfl
  rw [if_pos hends, List.dropLast_concat]
  cases p with
  | mk data =>
    cases data with
    | nil => simp
    | cons c cs =>
      have : ¬ (String.mk (c :: cs) = "") := by
        intro hcontra
        exact absurd (congrArg String.data hcontra) (by simp)
      simp only [if_neg this]
      rfl

/-! ## Claim C2: canonical form of accepted URLs -/

/-- C2 (amended). Every href the normalizer accepts yields a canonical URL of
the form origin ++ pathname where the fragment is stripped, exactly one
trailing slash is stripped from the path (the root path normalizing to "/"),
and the query string is dropped entirely (not preserved): the output contains
neither a fragment nor a query delimiter.  The second and third conjuncts
state the exactly-one-slash behaviour of the path canonicalizer. -/
theorem normalizeUrl_canonical :
    (∀ href out, normalizeUrl href = some out →
      ∃ u, newURL href BASE_URL = some u ∧
        out = urlOrigin u ++ stripTrailSlash u.pathname ∧
        '#' ∉ out.toList ∧ '?' ∉ out.toList ∧
        (u.hostname = "www.thcf.org" ∨ u.hostname = "thcf.org")) ∧
    (∀ p : String, stripTrailSlash (p ++ "/") = if p = "" then "/" else p) ∧
    stripTrailSlash "/" = "/" := by
  refine ⟨?_, stripTrailSlash_concat, by decide⟩
  intro href out h
  unfold normalizeUrl at h
  split at h
  · exact absurd h (by simp)
  · rename_i u hu
    refine ⟨u, hu, ?_⟩
    split at h
    · exact absurd h (by simp)
    · rename_i hhost
      dsimp only at h
      split at h
      · exact absurd h (by simp)
      · have hout : out = urlOrigin u ++ stripTrailSlash u.pathname := by
          cases h; rfl
        have hclean := newURL_clean hu
        have hhost2 : u.hostname = "www.thcf.org" ∨ u.hostname = "thcf.org" := by
          by_cases h1 : u.hostname = "www.thcf.org"
          · exact Or.inl h1
          · by_cases h2 : u.hostname = "thcf.org"
            · exact Or.inr h2
            · exact absurd ⟨h1, h2⟩ hhost
        refine ⟨hout, ?_, ?_, hhost2⟩
        · rw [hout]
          rw [toList_append]
          intro hmem
          rcases List.mem_append.mp hmem with hmem | hmem
          · unfold urlOrigin at hmem
            rw [toList_append, toList_append] at hmem
            rcases List.mem_append.mp hmem with hmem | hmem
            · rcases List.mem_append.mp hmem with hmem | hmem
              · rcases hclean.1 with hs | hs <;> rw [hs] at hmem <;> simp at hmem
              · rcases hhost2 with hs | hs <;> rw [hs] at hmem <;> simp at hmem
            · revert hmem
              split
              · simp
              · rw [toList_append]
                intro hmem
                rcases List.mem_append.mp hmem with hmem | hmem
                · simp at hmem
                · exact hclean.2.2.2.1 hmem
          · exact stripTrailSlash_noChar (by decide) hclean.2.1 hmem
        · rw [hout]
          rw [toList_append]
          intro hmem
          rcases List.mem_append.mp hmem with hmem | hmem
          · unfold urlOrigin at hmem
            rw [toList_append, toList_append] at hmem
            rcases List.mem_append.mp hmem with hmem | hmem
            · rcases List.mem_append.mp hmem with hmem | hmem
              · rcases hclean.1 with hs | hs <;> rw [hs] at hmem <;> simp at hmem
              · rcases hhost2 with hs | hs <;> rw [hs] at hmem <;> simp at hmem
            · revert hmem
              split
              · simp
              · rw [toList_append]
                intro hmem
                rcases List.mem_append.mp hmem with hmem | hmem
                · simp at hmem
                · exact hclean.2.2.2.2 hmem
          · exact stripTrailSlash_noChar (by decide) hclean.2.2.1 hmem

/-- C2 counterexample to the claim as stated: the code does not preserve the
query string.  An in-origin href with query ?x=1 normalizes to a URL with the
query dropped. -/
theorem normalizeUrl_query_not_preserved :
    normalizeUrl "https://www.thcf.org/page?x=1" = some "https://www.thcf.org/page" ∧
    '?' ∉ ("https://www.thcf.org/page").toList := by
  constructor
  · rfl
  · decide

/-- C2 witness: the amended theorem applied at the concrete root-relative
href "/donors/". -/
theorem normalizeUrl_canonical_witness :
    normalizeUrl "/donors/" = some "https://www.thcf.org/donors" ∧
    (∃ u, newURL "/donors/" BASE_URL = some u ∧
      "https://www.thcf.org/donors" = urlOrigin u ++ stripTrailSlash u.pathname ∧
      '#' ∉ ("https://www.thcf.org/donors").toList ∧
      '?' ∉ ("https://www.thcf.org/donors").toList ∧
      (u.hostname = "www.thcf.org" ∨ u.hostname = "thcf.org")) :=
  ⟨by rfl, normalizeUrl_canonical.1 "/donors/" "https://www.thcf.org/donors" (by rfl)⟩

/-! ## Claim C3: ordered classifier rules -/

lemma classifyGo_default (L : List ((String → Bool) × String)) (p : String)
    (h : ∀ q ∈ L, q.1 p = false) : classifyGo L p = "page" := by
  induction L with
  | nil => rfl
  | cons q rest ih =>
    obtain ⟨pat, ty⟩ := q
    have hq : pat p = false := h (pat, ty) (List.mem_cons_self _ _)
    show (if pat p = true then ty else classifyGo rest p) = "page"
    rw [hq]
    simp only [Bool.false_eq_true, if_false]
    exact ih (fun q hq2 => h q (List.mem_cons_of_mem _ hq2))

lemma classifyGo_first (pre post : List ((String → Bool) × String))
    (pat : String → Bool) (ty : String) (p : String)
    (hpre : ∀ q ∈ pre, q.1 p = false) (hm : pat p = true) :
    classifyGo (pre ++ (pat, ty) :: post) p = ty := by
  induction pre with
  | nil =>
    rw [List.nil_append]
    show (if pat p = true then ty else classifyGo post p) = ty
    rw [hm]
    simp
  | cons q rest ih =>
    obtain ⟨pat0, ty0⟩ := q
    have hq : pat0 p = false := hpre (pat0, ty0) (List.mem_cons_self _ _)
    show (if pat0 p = true then ty0 else classifyGo (rest ++ (pat, ty) :: post) p) = ty
    rw [hq]
    simp only [Bool.false_eq_true, if_false]
    exact ih (fun q hq2 => hpre q (List.mem_cons_of_mem _ hq2))

/-- C3. The classifier evaluates its ordered path-pattern rules with first
match winning and default "page": (1) every URL whose computed path is
"/news/my-article" classifies as "news"; (2) every URL whose computed path is
"/about/news" classifies as "news-listing"; (3) a path matching no rule
yields "page"; (4) the rule loop returns the type of the first matching rule;
(5) precedence demonstration: the scholarship-directory path matches three
rules and resolves to the earliest, "scholarship-listing". -/
theorem classifyPage_ordered_rules :
    (∀ url, pathnameForClassify url = "/news/my-article" → classifyPage url = "news") ∧
    (∀ url, pathnameForClassify url = "/about/news" → classifyPage url = "news-listing") ∧
    (∀ url, (∀ q ∈ PATTERNS, q.1 (pathnameForClassify url) = false) → classifyPage url = "page") ∧
    (∀ p pre pat ty post, PATTERNS = pre ++ (pat, ty) :: post →
      (∀ q ∈ pre, q.1 p = false) → pat p = true → classifyGo PATTERNS p = ty) ∧
    (patSchDirectory "/students/scholarships/scholarship-directory" = true ∧
     patStudentsSch "/students/scholarships/scholarship-directory" = true ∧
     patStudents "/students/scholarships/scholarship-directory" = true ∧
     classifyGo PATTERNS "/students/scholarships/scholarship-directory" = "scholarship-listing") := by
  refine ⟨?_, ?_, ?_, ?_, by decide, by decide, by decide, by decide⟩
  · intro url h
    unfold classifyPage
    rw [h]
    decide
  · intro url h
    unfold classifyPage
    rw [h]
    decide
  · intro url h
    exact classifyGo_default PATTERNS _ h
  · intro p pre pat ty post hP hpre hm
    rw [hP]
    exact classifyGo_first pre post pat ty p hpre hm

/-- C3 witness: the theorem applied at the two concrete paths of the claim. -/
theorem classifyPage_ordered_rules_witness :
    classifyPage "/news/my-article" = "news" ∧
    classifyPage "https://www.thcf.org/about/news" = "news-listing" :=
  ⟨classifyPage_ordered_rules.1 "/news/my-article" (by decide),
   classifyPage_ordered_rules.2.1 "https://www.thcf.org/about/news" (by decide)⟩

/-! ## Claim C10: well-formed storage slugs -/

lemma replSlashes_no_slash (l : List Char) : '/' ∉ replSlashes l := by
  induction l with
  | nil => simp [replSlashes]
  | cons c rest ih =>
    rw [replSlashes]
    split
    · intro hmem
      rcases List.mem_cons.mp hmem with h1 | hmem
      · exact absurd h1 (by decide)
      rcases List.mem_cons.mp hmem with h1 | hmem
      · exact absurd h1 (by decide)
      · exact ih hmem
    · rename_i hc
      intro hmem
      rcases List.mem_cons.mp hmem with h1 | hmem
      · exact hc h1.symm
      · exact ih hmem

lemma slugOfPathname_ok (l : List Char) :
    slugOfPathname l ≠ "" ∧ '/' ∉ (slugOfPathname l).toList := by
  unfold slugOfPathname
  dsimp only
  set m := if startsWithL ['/'] (if (if endsWithL ['/'] l then l.dropLast else l) = []
    then "index".toList else if endsWithL ['/'] l then l.dropLast else l) = true
    then List.drop 1 (if (if endsWithL ['/'] l then l.dropLast else l) = []
      then "index".toList else if endsWithL ['/'] l then l.dropLast else l)
    else if (if endsWithL ['/'] l then l.dropLast else l) = []
      then "index".toList else if endsWithL ['/'] l then l.dropLast else l with hm
  constructor
  · split
    · decide
    · rename_i hne
      intro hcontra
      exact hne (congrArg String.data hcontra)
  · split
    · decide
    · exact replSlashes_no_slash m

/-- C10. Every URL the URL constructor model parses gets a storage slug that
is non-empty and contains no "/" (path separators become "--"), and the root
path maps to "index", so each persisted per-page record has a well-formed
single-file key. -/
theorem slugFromUrl_wellformed (url : String) (u : URLRec) (s : String)
    (hparse : parseAbsURL url = some u) (hslug : slugFromUrl url = some s) :
    s ≠ "" ∧ '/' ∉ s.toList ∧ (u.pathname = "/" → s = "index") := by
  unfold slugFromUrl at hslug
  rw [hparse] at hslug
  have hs := Option.some.inj hslug
  refine ⟨hs ▸ (slugOfPathname_ok u.pathname.toList).1,
          hs ▸ (slugOfPathname_ok u.pathname.toList).2, ?_⟩
  intro hp
  rw [hp] at hs
  rw [← hs]
  decide

/-- C10 witness: the theorem applied at the concrete root URL. -/
theorem slugFromUrl_wellformed_witness :
    "index" ≠ "" ∧ '/' ∉ "index".toList ∧
      ((⟨"https", "www.thcf.org", "", "/", "", ""⟩ : URLRec).pathname = "/" → "index" = "index") :=
  slugFromUrl_wellformed "https://www.thcf.org/"
    ⟨"https", "www.thcf.org", "", "/", "", ""⟩ "index" (by rfl) (by rfl)

/-! ## Crawl Scheduler (scrape.mjs, run)

The crawl frontier state: the FIFO queue, the seenInQueue set guarding every
push, the visited set, and ghost histories recording every push actually
performed (pushedLog), every visited.add performed by the loop (visitLog) and
every fetch attempted by the loop (fetchLog), plus the count of processed
pages.  Sets are modelled as lists with membership.  The page.goto fetches of
the navigation-extraction and pagination-discovery phases operate on fixed
section URLs outside the crawl loop and are not part of this state machine.
-/

structure CrawlState where
  queue : List String
  seenInQueue : List String
  visited : List String
  pushedLog : List String
  visitLog : List String
  fetchLog : List String
  count : Nat
deriving DecidableEq

/-- Start-of-run state: in resume mode the visited set is pre-seeded from the
previously persisted site-map entries, everything else is empty. -/
def initState (resumeVisited : List String) : CrawlState :=
  { queue := [], seenInQueue := [], visited := resumeVisited,
    pushedLog := [], visitLog := [], fetchLog := [], count := 0 }

/-- The gated enqueue used for seeds, navigation links and harvested in-page
links: push only when the URL is neither visited nor already queued. -/
def enqueueGated (s : CrawlState) (n : String) : CrawlState :=
  if n ∈ s.visited ∨ n ∈ s.seenInQueue then s
  else { s with queue := s.queue ++ [n], seenInQueue := n :: s.seenInQueue,
                pushedLog := s.pushedLog ++ [n] }

/-- The pagination-discovery enqueue, gated only on seenInQueue. -/
def enqueuePagination (s : CrawlState) (n : String) : CrawlState :=
  if n ∈ s.seenInQueue then s
  else { s with queue := s.queue ++ [n], seenInQueue := n :: s.seenInQueue,
                pushedLog := s.pushedLog ++ [n] }

/-- Feeding the links of a successfully scraped page back into the frontier:
each is normalized, rejected links are dropped, accepted ones go through the
gated enqueue. -/
def harvestLinks : CrawlState → List String → CrawlState
  | s, [] => s
  | s, l :: rest =>
    match normalizeUrl l with
    | some n => harvestLinks (enqueueGated s n) rest
    | none => harvestLinks s rest

/-- Processing a freshly dequeued, not-yet-visited URL: mark visited, bump the
page count, and record the fetch attempt. -/
def markVisit (s : CrawlState) (url : String) : CrawlState :=
  { s with visited := url :: s.visited, visitLog := s.visitLog ++ [url],
           fetchLog := s.fetchLog ++ [url], count := s.count + 1 }

/-- Small-step relation over the crawl run.  The fetch oracle models
scrapePage: some links on success (status below 400), none on skip or error.
discover covers the seed loop, the navigation-link loop and the in-page link
harvest (all use the same visited-and-seen gate); paginate covers the
pagination-discovery pushes (seen gate only); the two dequeue steps are the
two branches of the main while loop body. -/
inductive CrawlStep (fetch : String → Option (List String)) :
    CrawlState → CrawlState → Prop
  | discover (s : CrawlState) (n : String) : CrawlStep fetch s (enqueueGated s n)
  | paginate (s : CrawlState) (n : String) : CrawlStep fetch s (enqueuePagination s n)
  | dequeueVisited (s : CrawlState) (url : String) (rest : List String)
      (hq : s.queue = url :: rest) (hv : url ∈ s.visited) :
      CrawlStep fetch s { s with queue := rest }
  | dequeueFresh (s : CrawlState) (url : String) (rest : List String)
      (hq : s.queue = url :: rest) (hv : url ∉ s.visited) :
      CrawlStep fetch s
        (match fetch url with
         | some links => harvestLinks (markVisit { s with queue := rest } url) links
         | none => markVisit { s with queue := rest } url)

/-- States reachable by the crawl run from the (possibly resumed) start. -/
def CrawlReach (fetch : String → Option (List String)) (resume : List String)
    (s : CrawlState) : Prop :=
  Relation.ReflTransGen (CrawlStep fetch) (initState resume) s

/-- The frontier invariant: no URL was ever pushed twice, the queue holds no
duplicates, no URL was ever marked visited twice by the loop, and the resumed
visited URLs stay visited and are never fetched. -/
def CrawlInv (resume : List String) (s : CrawlState) : Prop :=
  s.pushedLog.Nodup ∧
  s.queue.Nodup ∧
  s.visitLog.Nodup ∧
  (∀ u ∈ s.pushedLog, u ∈ s.seenInQueue) ∧
  (∀ u ∈ s.queue, u ∈ s.seenInQueue) ∧
  (∀ u ∈ s.visitLog, u ∈ s.visited) ∧
  (∀ u ∈ resume, u ∈ s.visited) ∧
  (∀ u ∈ s.fetchLog, u ∉ resume)

lemma nodup_snoc {α : Type} (l : List α) (a : α) (hl : l.Nodup) (ha : a ∉ l) :
    (l ++ [a]).Nodup := by
  rw [List.nodup_append]
  refine ⟨hl, List.nodup_singleton a, ?_⟩
  intro x hx hx2
  rw [List.mem_singleton] at hx2
  subst hx2
  exact ha hx

lemma push_preserves_inv {resume : List String} {s : CrawlState} {n : String}
    (hinv : CrawlInv resume s) (hseen : n ∉ s.seenInQueue) :
    CrawlInv resume
      { s with queue := s.queue ++ [n], seenInQueue := n :: s.seenInQueue,
               pushedLog := s.pushedLog ++ [n] } := by
  obtain ⟨h1, h2, h3, h4, h5, h6, h7, h8⟩ := hinv
  refine ⟨nodup_snoc _ _ h1 (fun hm => hseen (h4 n hm)),
          nodup_snoc _ _ h2 (fun hm => hseen (h5 n hm)), h3, ?_, ?_, h6, h7, h8⟩
  · intro u hu
    rcases List.mem_append.mp hu with hu | hu
    · exact List.mem_cons_of_mem _ (h4 u hu)
    · rcases List.mem_singleton.mp hu with rfl
      exact List.mem_cons_self _ _
  · intro u hu
    rcases List.mem_append.mp hu with hu | hu
    · exact List.mem_cons_of_mem _ (h5 u hu)
    · rcases List.mem_singleton.mp hu with rfl
      exact List.mem_cons_self _ _

lemma enqueueGated_inv {resume : List String} {s : CrawlState} {n : String}
    (hinv : CrawlInv resume s) : CrawlInv resume (enqueueGated s n) := by
  unfold enqueueGated
  split
  · exact hinv
  · rename_i hgate
    exact push_preserves_inv hinv (fun hmem => hgate (Or.inr hmem))

lemma enqueuePagination_inv {resume : List String} {s : CrawlState} {n : String}
    (hinv : CrawlInv resume s) : CrawlInv resume (enqueuePagination s n) := by
  unfold enqueuePagination
  split
  · exact hinv
  · rename_i hgate
    exact push_preserves_inv hinv hgate

lemma harvestLinks_inv {resume : List String} {links : List String} :
    ∀ {s : CrawlState}, CrawlInv resume s → CrawlInv resume (harvestLinks s links) := by
  induction links with
  | nil => intro s h; exact h
  | cons l rest ih =>
    intro s h
    show CrawlInv resume (harvestLinks s (l :: rest))
    rw [harvestLinks]
    cases normalizeUrl l with
    | none => exact ih h
    | some n => exact ih (enqueueGated_inv h)

lemma markVisit_inv {resume : List String} {s : CrawlState} {url : String}
    (hinv : CrawlInv resume s) (hv : url ∉ s.visited) :
    CrawlInv resume (markVisit s url) := by
  obtain ⟨h1, h2, h3, h4, h5, h6, h7, h8⟩ := hinv
  refine ⟨h1, h2, nodup_snoc _ _ h3 (fun hm => hv (h6 url hm)), h4, h5, ?_, ?_, ?_⟩
  · intro u hu
    rcases List.mem_append.mp hu with hu | hu
    · exact List.mem_cons_of_mem _ (h6 u hu)
    · rcases List.mem_singleton.mp hu with rfl
      exact List.mem_cons_self _ _
  · intro u hu
    exact List.mem_cons_of_mem _ (h7 u hu)
  · intro u hu
    rcases List.mem_append.mp hu with hu | hu
    · exact h8 u hu
    · rcases List.mem_singleton.mp hu with rfl
      intro hres
      exact hv (h7 u hres)

lemma crawlStep_inv {fetch : String → Option (List String)} {resume : List String}
    {s s2 : CrawlState} (hinv : CrawlInv resume s) (hstep : CrawlStep fetch s s2) :
    CrawlInv resume s2 := by
  cases hstep with
  | discover n => exact enqueueGated_inv hinv
  | paginate n => exact enqueuePagination_inv hinv
  | dequeueVisited url rest hq hv =>
    obtain ⟨h1, h2, h3, h4, h5, h6, h7, h8⟩ := hinv
    rw [hq] at h2 h5
    exact ⟨h1, (List.nodup_cons.mp h2).2, h3, h4,
           fun u hu => h5 u (List.mem_cons_of_mem _ hu), h6, h7, h8⟩
  | dequeueFresh url rest hq hv =>
    obtain ⟨h1, h2, h3, h4, h5, h6, h7, h8⟩ := hinv
    have hrest : CrawlInv resume { s with queue := rest } := by
      rw [hq] at h2 h5
      exact ⟨h1, (List.nodup_cons.mp h2).2, h3, h4,
             fun u hu => h5 u (List.mem_cons_of_mem _ hu), h6, h7, h8⟩
    have hmarked := markVisit_inv hrest hv
    cases fetch url with
    | some links => exact harvestLinks_inv hmarked
    | none => exact hmarked

lemma crawlReach_inv {fetch : String → Option (List String)} {resume : List String}
    {s : CrawlState} (h : CrawlReach fetch resume s) : CrawlInv resume s := by
  unfold CrawlReach at h
  induction h with
  | refl =>
    refine ⟨List.nodup_nil, List.nodup_nil, List.nodup_nil, ?_, ?_, ?_, ?_, ?_⟩ <;>
      simp [initState]
  | tail hab hbc ih => exact crawlStep_inv ih hbc

/-- C5. In every reachable crawl state, the history of pushes onto the
frontier queue has no duplicates (every enqueue site is gated by the
seenInQueue check, so no URL is ever enqueued twice), the queue itself holds
no duplicates, and the history of visited.add operations performed by the
dequeue loop has no duplicates (each dequeued URL is marked visited at most
once, the visited check before marking making re-marking impossible). -/
theorem crawl_no_duplicate_visits_or_pushes
    (fetch : String → Option (List String)) (resume : List String)
    (s : CrawlState) (h : CrawlReach fetch resume s) :
    s.pushedLog.Nodup ∧ s.queue.Nodup ∧ s.visitLog.Nodup :=
  let hinv := crawlReach_inv h
  ⟨hinv.1, hinv.2.1, hinv.2.2.1⟩

def c5Url : String := "https://www.thcf.org/donors"

def c5Mid : CrawlState := enqueueGated (initState []) c5Url

def c5Final : CrawlState := harvestLinks (markVisit { c5Mid with queue := [] } c5Url) []

/-- C5 witness: a two-step concrete run (discover then fresh dequeue) of the
crawl machine, instantiating the theorem. -/
theorem crawl_no_duplicate_visits_or_pushes_witness :
    c5Final.pushedLog.Nodup ∧ c5Final.queue.Nodup ∧ c5Final.visitLog.Nodup := by
  have hstep1 : CrawlStep (fun _ => some []) (initState []) c5Mid :=
    CrawlStep.discover _ _
  have hq : c5Mid.queue = c5Url :: [] := by decide
  have hv : c5Url ∉ c5Mid.visited := by decide
  have hstep2 : CrawlStep (fun _ => some []) c5Mid c5Final :=
    CrawlStep.dequeueFresh _ c5Url [] hq hv
  exact crawl_no_duplicate_visits_or_pushes (fun _ => some []) [] c5Final
    (Relation.ReflTransGen.tail
      (Relation.ReflTransGen.tail Relation.ReflTransGen.refl hstep1) hstep2)

/-- C6. Resume semantics: in every reachable state of a resumed run, each URL
pre-seeded into the visited set from the prior site-map is still visited and
was never fetched by the crawl loop; and any URL that is neither visited nor
queued remains eligible: the gated enqueue genuinely appends it to the queue,
and that enqueue is a legal step of the machine. -/
theorem crawl_resume_semantics
    (fetch : String → Option (List String)) (resume : List String)
    (s : CrawlState) (h : CrawlReach fetch resume s) :
    (∀ u ∈ resume, u ∈ s.visited ∧ u ∉ s.fetchLog) ∧
    (∀ n, n ∉ s.visited → n ∉ s.seenInQueue →
      n ∈ (enqueueGated s n).queue ∧ CrawlStep fetch s (enqueueGated s n)) := by
  have hinv := crawlReach_inv h
  constructor
  · intro u hu
    exact ⟨hinv.2.2.2.2.2.2.1 u hu, fun hf => hinv.2.2.2.2.2.2.2 u hf hu⟩
  · intro n hnv hns
    constructor
    · unfold enqueueGated
      rw [if_neg (by intro hor; rcases hor with hor | hor; exact hnv hor; exact hns hor)]
      simp
    · exact CrawlStep.discover s n

/-- C6 witness: the theorem applied to the resumed initial state itself, with
one pre-seeded URL. -/
theorem crawl_resume_semantics_witness :
    (∀ u ∈ ["https://www.thcf.org/about"], u ∈ (initState ["https://www.thcf.org/about"]).visited ∧
      u ∉ (initState ["https://www.thcf.org/about"]).fetchLog) ∧
    (∀ n, n ∉ (initState ["https://www.thcf.org/about"]).visited →
      n ∉ (initState ["https://www.thcf.org/about"]).seenInQueue →
      n ∈ (enqueueGated (initState ["https://www.thcf.org/about"]) n).queue ∧
      CrawlStep (fun _ => none) (initState ["https://www.thcf.org/about"])
        (enqueueGated (initState ["https://www.thcf.org/about"]) n)) :=
  crawl_resume_semantics (fun _ => none) ["https://www.thcf.org/about"]
    (initState ["https://www.thcf.org/about"]) Relation.ReflTransGen.refl

lemma enqueueGated_count (s : CrawlState) (n : String) :
    (enqueueGated s n).count = s.count := by
  unfold enqueueGated
  split <;> rfl

lemma harvestLinks_count (links : List String) :
    ∀ s : CrawlState, (harvestLinks s links).count = s.count := by
  induction links with
  | nil => intro s; rfl
  | cons l rest ih =>
    intro s
    rw [harvestLinks]
    cases normalizeUrl l with
    | none => exact ih s
    | some n => rw [ih, enqueueGated_count]

lemma markVisit_count (s : CrawlState) (url : String) :
    (markVisit s url).count = s.count + 1 := rfl

/-- The main while loop of run(): dequeue while the queue is non-empty and
the processed count is below the page budget; already-visited URLs are
skipped, fresh ones are fetched (the oracle models scrapePage), marked
visited, counted, and their links harvested on success. -/
def crawlLoop (fetch : String → Option (List String)) (maxPages : Nat)
    (s : CrawlState) : CrawlState :=
  match hq : s.queue with
  | [] => s
  | url :: rest =>
    if hcount : s.count < maxPages then
      if url ∈ s.visited then
        crawlLoop fetch maxPages { s with queue := rest }
      else
        match fetch url with
        | some links =>
          crawlLoop fetch maxPages (harvestLinks (markVisit { s with queue := rest } url) links)
        | none =>
          crawlLoop fetch maxPages (markVisit { s with queue := rest } url)
    else s
termination_by (maxPages - s.count, s.queue.length)
decreasing_by
  · apply Prod.Lex.right
    dsimp only
    rw [hq]
    simp
  · apply Prod.Lex.left
    rw [harvestLinks_count, markVisit_count]
    dsimp only
    omega
  · apply Prod.Lex.left
    rw [markVisit_count]
    dsimp only
    omega

/-- C9. The crawl loop never exceeds the page budget and stops exactly at the
terminal condition: from any state within budget, the final state is within
budget and satisfies (frontier empty or budget reached). -/
theorem crawlLoop_budget (fetch : String → Option (List String)) (maxPages : Nat)
    (s : CrawlState) (h : s.count ≤ maxPages) :
    (crawlLoop fetch maxPages s).count ≤ maxPages ∧
    ((crawlLoop fetch maxPages s).queue = [] ∨
      (crawlLoop fetch maxPages s).count = maxPages) := by
  unfold crawlLoop
  split
  · rename_i hq
    exact ⟨h, Or.inl hq⟩
  · rename_i url rest hq
    split
    · rename_i hcount
      split
      · exact crawlLoop_budget fetch maxPages _ h
      · split
        · rename_i links hfetch
          apply crawlLoop_budget
          rw [harvestLinks_count, markVisit_count]
          dsimp only
          omega
        · apply crawlLoop_budget
          rw [markVisit_count]
          dsimp only
          omega
    · rename_i hcount
      have : s.count = maxPages := by omega
      exact ⟨h, Or.inr this⟩
termination_by (maxPages - s.count, s.queue.length)
decreasing_by
  all_goals
    first
      | (apply Prod.Lex.left
         rw [harvestLinks_count, markVisit_count]
         dsimp only
         omega)
      | (apply Prod.Lex.left
         rw [markVisit_count]
         dsimp only
         omega)
      | (apply Prod.Lex.right
         dsimp only
         simp_all)

/-- C9 witness: the theorem applied to the empty start state with budget 5. -/
theorem crawlLoop_budget_witness :
    (crawlLoop (fun _ => none) 5 (initState [])).count ≤ 5 ∧
    ((crawlLoop (fun _ => none) 5 (initState [])).queue = [] ∨
      (crawlLoop (fun _ => none) 5 (initState [])).count = 5) :=
  crawlLoop_budget (fun _ => none) 5 (initState []) (by decide)

/-! ## DOM model (the cheerio document)

Nodes are elements with a tag, an attribute list and children, or text.  The
forest type is mutually inductive with the node type so that all tree
functions are structural (and therefore compute inside the kernel).  Entity
encoding and raw-text parsing of script content are not modelled; the
concrete inputs below contain neither.
-/

mutual
inductive HNode where
  | elem (tag : String) (attrs : List (String × String)) (children : HForest)
  | text (s : String)
inductive HForest where
  | nil
  | cons (head : HNode) (tail : HForest)
end

def HForest.toList : HForest → List HNode
  | .nil => []
  | .cons h t => h :: t.toList

def HForest.ofList : List HNode → HForest
  | [] => .nil
  | h :: t => .cons h (HForest.ofList t)

def HForest.get? : HForest → Nat → Option HNode
  | .nil, _ => none
  | .cons h _, 0 => some h
  | .cons _ t, n + 1 => t.get? n

mutual
def textOfNode : HNode → String
  | .text s => s
  | .elem _ _ cs => textOfForest cs
def textOfForest : HForest → String
  | .nil => ""
  | .cons n t => textOfNode n ++ textOfForest t
end

def getAttr (attrs : List (String × String)) (name : String) : Option String :=
  (attrs.find? (fun a => a.1 = name)).map Prod.snd

/-- Split a class attribute value on whitespace. -/
def wordsL : List Char → List Char → List String
  | [], cur => if cur = [] then [] else [String.mk cur.reverse]
  | c :: rest, cur =>
    if isWsChar c then
      if cur = [] then wordsL rest [] else String.mk cur.reverse :: wordsL rest []
    else wordsL rest (c :: cur)

def classesOf (attrs : List (String × String)) : List String :=
  match getAttr attrs "class" with
  | some c => wordsL c.toList []
  | none => []

def renderAttrs : List (String × String) → String
  | [] => ""
  | (n, v) :: rest => " " ++ n ++ "=\"" ++ v ++ "\"" ++ renderAttrs rest

def voidTags : List String :=
  ["br", "img", "hr", "meta", "link", "input", "source", "area", "base",
   "col", "embed", "track", "wbr"]

mutual
def renderNode : HNode → String
  | .text s => s
  | .elem t a cs =>
    if voidTags.contains t then "<" ++ t ++ renderAttrs a ++ ">"
    else "<" ++ t ++ renderAttrs a ++ ">" ++ renderForest cs ++ "</" ++ t ++ ">"
def renderForest : HForest → String
  | .nil => ""
  | .cons n rest => renderNode n ++ renderForest rest
end

/-! ### HTML parsing (fuelled; only ever evaluated on concrete inputs) -/

inductive HTok where
  | text (s : String)
  | openTag (tag : String) (attrs : List (String × String)) (selfClose : Bool)
  | closeTag (tag : String)

def isTagNameChar (c : Char) : Bool :=
  !isWsChar c && c ≠ '>' && c ≠ '/' && c ≠ '<' && c ≠ '='

def lexAttrs : Nat → List Char → List (String × String) × Bool × List Char
  | 0, l => ([], false, l)
  | fuel + 1, l0 =>
    let l := l0.dropWhile isWsChar
    match l with
    | [] => ([], false, [])
    | '>' :: rest => ([], false, rest)
    | '/' :: '>' :: rest => ([], true, rest)
    | '/' :: rest => lexAttrs fuel rest
    | _ =>
      let name := l.takeWhile isTagNameChar
      if name = [] then
        match l with
        | _ :: rest => lexAttrs fuel rest
        | [] => ([], false, [])
      else
        let l2 := (l.drop name.length).dropWhile isWsChar
        match l2 with
        | '=' :: l3 =>
          let l3 := l3.dropWhile isWsChar
          match l3 with
          | '"' :: l4 =>
            let v := l4.takeWhile (fun c => c ≠ '"')
            let l5 := (l4.drop v.length).drop 1
            let (as2, sc, rest) := lexAttrs fuel l5
            ((String.mk name, String.mk v) :: as2, sc, rest)
          | _ =>
            let v := l3.takeWhile (fun c => !isWsChar c && c ≠ '>')
            let (as2, sc, rest) := lexAttrs fuel (l3.drop v.length)
            ((String.mk name, String.mk v) :: as2, sc, rest)
        | _ =>
          let (as2, sc, rest) := lexAttrs fuel l2
          ((String.mk name, "") :: as2, sc, rest)

def tokenize : Nat → List Char → List HTok
  | 0, _ => []
  | _ + 1, [] => []
  | fuel + 1, '<' :: '/' :: rest =>
    let name := rest.takeWhile (fun c => c ≠ '>')
    let rest2 := (rest.drop name.length).drop 1
    HTok.closeTag (String.mk (lowerL (trimL name))) :: tokenize fuel rest2
  | fuel + 1, '<' :: rest =>
    let name := rest.takeWhile isTagNameChar
    if name = [] then
      HTok.text "<" :: tokenize fuel rest
    else
      let (attrs, sc, rest2) := lexAttrs (rest.length + 1) (rest.drop name.length)
      HTok.openTag (String.mk (lowerL name)) attrs sc :: tokenize fuel rest2
  | fuel + 1, l =>
    let t := l.takeWhile (fun c => c ≠ '<')
    HTok.text (String.mk t) :: tokenize fuel (l.drop t.length)

/-- A builder frame: an open element with its children collected in reverse. -/
def HFrame : Type := String × List (String × String) × List HNode

def attachNode (stack : List HFrame) (rootRev : List HNode) (n : HNode) :
    List HFrame × List HNode :=
  match stack with
  | [] => ([], n :: rootRev)
  | (t, a, kids) :: rest => ((t, a, n :: kids) :: rest, rootRev)

def closeTop (stack : List HFrame) (rootRev : List HNode) : List HFrame × List HNode :=
  match stack with
  | [] => ([], rootRev)
  | (t, a, kids) :: rest =>
    attachNode rest rootRev (HNode.elem t a (HForest.ofList kids.reverse))

def closeUntilTag : Nat → String → List HFrame → List HNode → List HFrame × List HNode
  | 0, _, stack, rootRev => (stack, rootRev)
  | fuel + 1, tag, stack, rootRev =>
    match stack with
    | [] => ([], rootRev)
    | (t, _, _) :: _ =>
      let (s2, r2) := closeTop stack rootRev
      if t = tag then (s2, r2) else closeUntilTag fuel tag s2 r2

def finishAll : Nat → List HFrame → List HNode → List HNode
  | 0, _, rootRev => rootRev
  | fuel + 1, stack, rootRev =>
    match stack with
    | [] => rootRev
    | _ =>
      let (s2, r2) := closeTop stack rootRev
      finishAll fuel s2 r2

def buildTrees : List HTok → List HFrame → List HNode → List HNode
  | [], stack, rootRev => (finishAll (stack.length + 1) stack rootRev).reverse
  | tok :: toks, stack, rootRev =>
    match tok with
    | .text s =>
      let (s2, r2) := attachNode stack rootRev (.text s)
      buildTrees toks s2 r2
    | .openTag t a sc =>
      if sc || voidTags.contains t then
        let (s2, r2) := attachNode stack rootRev (.elem t a .nil)
        buildTrees toks s2 r2
      else buildTrees toks ((t, a, []) :: stack) rootRev
    | .closeTag t =>
      if stack.any (fun f => f.1 = t) then
        let (s2, r2) := closeUntilTag (stack.length + 1) t stack rootRev
        buildTrees toks s2 r2
      else buildTrees toks stack rootRev

def parseHTML (s : String) : List HNode :=
  buildTrees (tokenize (s.toList.length + 1) s.toList) [] []

/-- Model of cheerio.load: a fragment is wrapped in the html/head/body
skeleton; a document that already has a single html root is kept. -/
def loadDoc (s : String) : HForest :=
  match parseHTML s with
  | [HNode.elem "html" a cs] => HForest.ofList [HNode.elem "html" a cs]
  | f =>
    HForest.ofList
      [HNode.elem "html" []
        (HForest.ofList
          [HNode.elem "head" [] .nil, HNode.elem "body" [] (HForest.ofList f)])]

/-! ### CSS selectors (the subset the scripts use) -/

structure CSel where
  tag : Option String
  cls : Option String
  attrEx : Option String
  attrEq : Option (String × String)
  attrStart : Option (String × String)
  attrSub : Option (String × String)

def selTag (t : String) : CSel := ⟨some t, none, none, none, none, none⟩

def selCls (c : String) : CSel := ⟨none, some c, none, none, none, none⟩

def selTagCls (t c : String) : CSel := ⟨some t, some c, none, none, none, none⟩

def selAttrEx (a : String) : CSel := ⟨none, none, some a, none, none, none⟩

def selAttrEq (a v : String) : CSel := ⟨none, none, none, some (a, v), none, none⟩

def selTagAttrStart (t a v : String) : CSel := ⟨some t, none, none, none, some (a, v), none⟩

def selAttrSub (a v : String) : CSel := ⟨none, none, none, none, none, some (a, v)⟩

def selTagAttrSub (t a v : String) : CSel := ⟨some t, none, none, none, none, some (a, v)⟩

def containsL : List Char → List Char → Bool
  | pat, [] => startsWithL pat []
  | pat, c :: rest => startsWithL pat (c :: rest) || containsL pat rest

def matchesSel (sel : CSel) (n : HNode) : Bool :=
  match n with
  | .text _ => false
  | .elem t a _ =>
    (match sel.tag with | none => true | some st => t = st) &&
    (match sel.cls with | none => true | some sc => (classesOf a).contains sc) &&
    (match sel.attrEx with | none => true | some an => (getAttr a an).isSome) &&
    (match sel.attrEq with | none => true | some (an, av) => getAttr a an = some av) &&
    (match sel.attrStart with
     | none => true
     | some (an, av) =>
       match getAttr a an with
       | some v => startsWithL av.toList v.toList
       | none => false) &&
    (match sel.attrSub with
     | none => true
     | some (an, av) =>
       match getAttr a an with
       | some v => containsL av.toList v.toList
       | none => false)

/-- Split a compound selector into its ancestor part and its subject. -/
def splitLast : List CSel → Option (List CSel × CSel)
  | [] => none
  | [s] => some ([], s)
  | s :: rest =>
    match splitLast rest with
    | some (init, l) => some (s :: init, l)
    | none => none

/-- Descendant-combinator matching of ancestor selectors against the ordered
(outermost first) ancestor chain. -/
def matchAncestors : List CSel → List HNode → Bool
  | [], _ => true
  | _ :: _, [] => false
  | s :: srest, a :: arest =>
    (matchesSel s a && matchAncestors srest arest) || matchAncestors (s :: srest) arest

def matchCompoundAnc (comp : List CSel) (anc : List HNode) (n : HNode) : Bool :=
  match splitLast comp with
  | none => false
  | some (ancSels, subject) => matchesSel subject n && matchAncestors ancSels anc

/-! ### Document traversal by paths -/

mutual
def pathsNode (pre : List Nat) (idx : Nat) : HNode → List (List Nat × HNode)
  | .text s => [(pre ++ [idx], .text s)]
  | .elem t a cs => (pre ++ [idx], .elem t a cs) :: pathsForest (pre ++ [idx]) 0 cs
def pathsForest (pre : List Nat) (idx : Nat) : HForest → List (List Nat × HNode)
  | .nil => []
  | .cons n rest => pathsNode pre idx n ++ pathsForest pre (idx + 1) rest
end

def allPaths (doc : HForest) : List (List Nat × HNode) := pathsForest [] 0 doc

def nodeAtPath : HForest → List Nat → Option HNode
  | f, [i] => f.get? i
  | f, i :: rest =>
    match f.get? i with
    | some (.elem _ _ cs) => nodeAtPath cs rest
    | _ => none
  | _, [] => none

def childrenAtPath : HForest → List Nat → Option HForest
  | f, [] => some f
  | f, i :: rest =>
    match f.get? i with
    | some (.elem _ _ cs) => childrenAtPath cs rest
    | _ => none

/-- The ancestor chain (outermost first) of the node at the given path. -/
def ancestorNodes (doc : HForest) (p : List Nat) : List HNode :=
  ((List.range (p.length - 1)).map (fun k => nodeAtPath doc (p.take (k + 1)))).foldr
    (fun o acc =>
      match o with
      | some n => n :: acc
      | none => acc) []

def matchCompoundAt (doc : HForest) (p : List Nat) (n : HNode) (comp : List CSel) : Bool :=
  matchCompoundAnc comp (ancestorNodes doc p) n

/-- First match of a selector group, in document order. -/
def querySelOne (doc : HForest) (group : List (List CSel)) : Option (List Nat × HNode) :=
  (allPaths doc).find? (fun pn => group.any (matchCompoundAt doc pn.1 pn.2))

/-- All matches of a selector group, in document order. -/
def querySelAll (doc : HForest) (group : List (List CSel)) : List (List Nat × HNode) :=
  (allPaths doc).filter (fun pn => group.any (matchCompoundAt doc pn.1 pn.2))

def innerHTMLOf : HNode → String
  | .text _ => ""
  | .elem _ _ cs => renderForest cs

def childForest : HNode → HForest
  | .elem _ _ cs => cs
  | .text _ => .nil

def getAttrOfNode (n : HNode) (name : String) : Option String :=
  match n with
  | .elem _ a _ => getAttr a name
  | .text _ => none

/-! ### Removal by selector, with ancestor context for descendant compounds -/

mutual
def removeNodeG (group : List (List CSel)) (anc : List HNode) : HNode → HNode
  | .text s => .text s
  | .elem t a cs => .elem t a (removeForestG group (anc ++ [.elem t a cs]) cs)
def removeForestG (group : List (List CSel)) (anc : List HNode) : HForest → HForest
  | .nil => .nil
  | .cons n rest =>
    if group.any (fun comp => matchCompoundAnc comp anc n) then
      removeForestG group anc rest
    else .cons (removeNodeG group anc n) (removeForestG group anc rest)
end

def applyRemovals : List (List (List CSel)) → HForest → HForest
  | [], f => f
  | g :: rest, f => applyRemovals rest (removeForestG g [] f)

/-- Does this element match p:first-child with a direct img.thumbnail child? -/
def isThumbP (n : HNode) : Bool :=
  match n with
  | .elem "p" _ cs =>
    (HForest.toList cs).any fun c =>
      match c with
      | .elem "img" a _ => (classesOf a).contains "thumbnail"
      | _ => false
  | _ => false

mutual
def removeThumbNode : HNode → HNode
  | .text s => .text s
  | .elem t a cs => .elem t a (removeThumbForest cs)
def removeThumbForest : HForest → HForest
  | .nil => .nil
  | .cons n rest =>
    if isThumbP n then removeThumbRest rest
    else .cons (removeThumbNode n) (removeThumbRest rest)
def removeThumbRest : HForest → HForest
  | .nil => .nil
  | .cons n rest => .cons (removeThumbNode n) (removeThumbRest rest)
end

/-! ## HTML Content Cleaners (prepare-content.mjs) -/

def mainContentSel : List (List CSel) := [[selTagCls "section" "main-content"]]

def subContentSel : List (List CSel) := [[selTagCls "section" "sub-content"]]

def newsRemovals : List (List (List CSel)) :=
  [[[selTagCls "section" "article-info"]],
   [[selTagCls "section" "related"]],
   [[selTagCls "section" "text-banner"]],
   [[selTagCls "div" "share"]],
   [[selCls "a2a_kit"]],
   [[selTagAttrSub "script" "src" "addtoany"]],
   [[selTag "script"]],
   [[selAttrSub "class" "ctct"]]]

/-- Embedding of cleanNewsBody from prepare-content.mjs. -/
def cleanNewsBody (rawBody : String) : String :=
  if rawBody = "" then ""
  else
    let doc := applyRemovals newsRemovals (loadDoc rawBody)
    let mainContent :=
      match querySelOne doc mainContentSel with
      | some (_, n) => innerHTMLOf n
      | none => ""
    let subContent :=
      match querySelOne doc subContentSel with
      | some (_, n) => innerHTMLOf n
      | none => ""
    let body :=
      if mainContent ≠ "" then renderForest (removeThumbForest (loadDoc mainContent))
      else ""
    jsTrim (body ++ subContent)

def schRemovals : List (List (List CSel)) :=
  [[[selTagCls "section" "banner"]],
   [[selTagCls "section" "side-nav"]],
   [[selTagCls "div" "share"]],
   [[selCls "a2a_kit"]],
   [[selTag "script"]],
   [[selAttrSub "class" "ctct"]]]

/-- Embedding of cleanScholarshipBody from prepare-content.mjs. -/
def cleanScholarshipBody (rawBody : String) : String :=
  if rawBody = "" then ""
  else
    let doc := applyRemovals schRemovals (loadDoc rawBody)
    match querySelOne doc mainContentSel with
    | none => ""
    | some (_, n) =>
      let mc := innerHTMLOf n
      if mc = "" then "" else jsTrim mc

def pageRemovals : List (List (List CSel)) :=
  [[[selTagCls "section" "banner"]],
   [[selTagCls "section" "side-nav"]],
   [[selTagCls "section" "article-info"]],
   [[selTagCls "section" "related"]],
   [[selTagCls "section" "sub-content", selCls "side-block", selCls "sub-nav"]],
   [[selTagCls "div" "share"]],
   [[selCls "a2a_kit"]],
   [[selTag "script"]],
   [[selAttrSub "class" "ctct"]]]

/-- Embedding of cleanPageBody from prepare-content.mjs. -/
def cleanPageBody (rawBody : String) : String :=
  if rawBody = "" then ""
  else
    let doc := applyRemovals pageRemovals (loadDoc rawBody)
    let mainContent :=
      match querySelOne doc mainContentSel with
      | some (_, n) => innerHTMLOf n
      | none => ""
    let subContent :=
      match querySelOne doc subContentSel with
      | some (_, n) => innerHTMLOf n
      | none => ""
    let body := (if mainContent ≠ "" then mainContent else "") ++
      (if subContent ≠ "" then subContent else "")
    let body := if body = "" then renderForest doc else body
    jsTrim body

/-! ## Claim C4: cleaner idempotence fails -/

set_option maxHeartbeats 4000000 in
/-- C4 counterexample. Cleaning is not a projection: on the body
section.main-content wrapping one paragraph, applying each cleaner twice
differs from applying it once.  The cleaners return the inner HTML of the
main-content section, so the second pass no longer finds that section: the
news and scholarship cleaners return the empty string, and the page cleaner
falls back to the document-wrapped serialization. -/
theorem cleaners_not_idempotent :
    cleanNewsBody (cleanNewsBody "<section class=\"main-content\"><p>Hi</p></section>") ≠
      cleanNewsBody "<section class=\"main-content\"><p>Hi</p></section>" ∧
    cleanScholarshipBody (cleanScholarshipBody "<section class=\"main-content\"><p>Hi</p></section>") ≠
      cleanScholarshipBody "<section class=\"main-content\"><p>Hi</p></section>" ∧
    cleanPageBody (cleanPageBody "<section class=\"main-content\"><p>Hi</p></section>") ≠
      cleanPageBody "<section class=\"main-content\"><p>Hi</p></section>" := by
  refine ⟨?_, ?_, ?_⟩ <;> decide

set_option maxHeartbeats 8000000 in
/-- C4 (amended). The cleaners are idempotent only in degenerate cases: each
fixes the empty string, but on its own non-empty cleaned output (which no
longer contains the section wrappers) the news and scholarship cleaners
return the empty string and the page cleaner returns the document-wrapped
fallback, which only stabilizes from the second application on. -/
theorem cleaners_second_pass_behaviour :
    cleanNewsBody "" = "" ∧
    cleanScholarshipBody "" = "" ∧
    cleanPageBody "" = "" ∧
    cleanScholarshipBody "<section class=\"main-content\"><p>Hi</p></section>" = "<p>Hi</p>" ∧
    cleanScholarshipBody (cleanScholarshipBody "<section class=\"main-content\"><p>Hi</p></section>") = "" ∧
    cleanNewsBody "<section class=\"main-content\"><p>Hi</p></section>" =
      "<html><head></head><body><p>Hi</p></body></html>" ∧
    cleanNewsBody (cleanNewsBody "<section class=\"main-content\"><p>Hi</p></section>") = "" ∧
    cleanPageBody "<section class=\"main-content\"><p>Hi</p></section>" = "<p>Hi</p>" ∧
    cleanPageBody (cleanPageBody "<section class=\"main-content\"><p>Hi</p></section>") =
      "<html><head></head><body><p>Hi</p></body></html>" ∧
    cleanPageBody (cleanPageBody (cleanPageBody "<section class=\"main-content\"><p>Hi</p></section>")) =
      cleanPageBody (cleanPageBody "<section class=\"main-content\"><p>Hi</p></section>") := by
  refine ⟨?_, ?_, ?_, ?_, ?_, ?_, ?_, ?_, ?_, ?_⟩ <;> decide

/-! ## Field Extractors (extract-fields.mjs)

Each extractor consumes the rendered page DOM (document) and is total: every
missing element yields its default empty string or empty list, mirroring the
optional-chaining fallbacks of the source.
-/

structure ImageRef where
  src : String
  alt : String
deriving DecidableEq

structure NewsFields where
  title : String
  date : String
  author : String
  category : String
  featuredImage : String
  body : String
  bodyText : String
  images : List ImageRef
deriving DecidableEq

structure StaffMember where
  name : String
  jobTitle : String
  photo : String
  email : String
  phone : String
deriving DecidableEq

structure StaffFields where
  members : List StaffMember
  body : String
deriving DecidableEq

structure PageFields where
  title : String
  body : String
  bodyText : String
  images : List ImageRef
  sidebar : String
deriving DecidableEq

def jsOr (a b : String) : String := if a = "" then b else a

def optNodeText (o : Option (List Nat × HNode)) : String :=
  match o with
  | some (_, n) => jsTrim (textOfNode n)
  | none => ""

def optNodeHTML (o : Option (List Nat × HNode)) : String :=
  match o with
  | some (_, n) => innerHTMLOf n
  | none => ""

def h1Sel : List (List CSel) := [[selTag "h1"]]

def newsBodySel : List (List CSel) :=
  [[selTag "article"], [selCls "entry-content"], [selCls "post-content"],
   [selTag "main", selCls "content"], [selTag "main"]]

def dateSel : List (List CSel) :=
  [[selTag "time"], [selCls "date"], [selCls "post-date"], [selAttrEx "datetime"]]

def authorSel : List (List CSel) :=
  [[selCls "author"], [selCls "byline"], [selAttrEq "rel" "author"]]

def categorySel : List (List CSel) :=
  [[selCls "category"], [selCls "tag"], [selCls "post-category"]]

def featuredImgSel : List (List CSel) :=
  [[selTag "article", selTag "img"], [selCls "post-content", selTag "img"],
   [selCls "hero", selTag "img"], [selTag "main", selTag "img"]]

def contentImgsSel : List (List CSel) :=
  [[selTag "article", selTag "img"], [selTag "main", selTag "img"]]

def staffCardsSel : List (List CSel) :=
  [[selCls "staff-card"], [selCls "team-member"], [selCls "card"],
   [selAttrSub "class" "staff"], [selAttrSub "class" "team"]]

def cardNameSel : List (List CSel) :=
  [[selTag "h2"], [selTag "h3"], [selTag "h4"], [selCls "name"]]

def cardTitleSel : List (List CSel) :=
  [[selCls "title"], [selCls "position"], [selCls "role"], [selTag "p"]]

def imgSel : List (List CSel) := [[selTag "img"]]

def mailtoSel : List (List CSel) := [[selTagAttrStart "a" "href" "mailto:"]]

def telSel : List (List CSel) := [[selTagAttrStart "a" "href" "tel:"]]

def mainSel : List (List CSel) := [[selTag "main"]]

def genericBodySel : List (List CSel) :=
  [[selTag "article"], [selTag "main", selCls "content"],
   [selCls "page-content"], [selTag "main"]]

def sidebarSel : List (List CSel) := [[selTag "aside"], [selCls "sidebar"]]

/-- Embedding of extractNews from extract-fields.mjs. -/
def extractNews (doc : HForest) : NewsFields :=
  { title := optNodeText (querySelOne doc h1Sel)
    date :=
      match querySelOne doc dateSel with
      | none => ""
      | some (_, n) => jsOr ((getAttrOfNode n "datetime").getD "") (jsTrim (textOfNode n))
    author := optNodeText (querySelOne doc authorSel)
    category := optNodeText (querySelOne doc categorySel)
    featuredImage :=
      match querySelOne doc featuredImgSel with
      | none => ""
      | some (_, n) => (getAttrOfNode n "src").getD ""
    body := optNodeHTML (querySelOne doc newsBodySel)
    bodyText := optNodeText (querySelOne doc newsBodySel)
    images := (querySelAll doc contentImgsSel).map fun pn =>
      ⟨(getAttrOfNode pn.2 "src").getD "", (getAttrOfNode pn.2 "alt").getD ""⟩ }

def mkStaffMember (card : HNode) : StaffMember :=
  { name := optNodeText (querySelOne (childForest card) cardNameSel)
    jobTitle := optNodeText (querySelOne (childForest card) cardTitleSel)
    photo :=
      match querySelOne (childForest card) imgSel with
      | none => ""
      | some (_, n) => (getAttrOfNode n "src").getD ""
    email := optNodeText (querySelOne (childForest card) mailtoSel)
    phone := optNodeText (querySelOne (childForest card) telSel) }

/-- Embedding of extractStaffListing from extract-fields.mjs; a card yields a
member only when a name was found, and zero matching cards degrade to the
whole-page body. -/
def extractStaffListing (doc : HForest) : StaffFields :=
  { members := (querySelAll doc staffCardsSel).foldr
      (fun pn acc =>
        let m := mkStaffMember pn.2
        if m.name ≠ "" then m :: acc else acc) []
    body := optNodeHTML (querySelOne doc mainSel) }

/-- Embedding of extractGenericPage from extract-fields.mjs. -/
def extractGenericPage (doc : HForest) : PageFields :=
  { title := optNodeText (querySelOne doc h1Sel)
    body := optNodeHTML (querySelOne doc genericBodySel)
    bodyText := optNodeText (querySelOne doc genericBodySel)
    images := (querySelAll doc contentImgsSel).map fun pn =>
      ⟨(getAttrOfNode pn.2 "src").getD "", (getAttrOfNode pn.2 "alt").getD ""⟩
    sidebar := optNodeHTML (querySelOne doc sidebarSel) }

/-- C8. Extraction is total (the extractors are plain functions on the DOM)
and every absent element yields its declared default: each field whose
selector chain finds nothing is the empty string, and the image and member
collections are empty lists when no elements match. -/
theorem extractors_default_on_missing :
    (∀ doc : HForest, querySelOne doc h1Sel = none → (extractNews doc).title = "") ∧
    (∀ doc : HForest, querySelOne doc newsBodySel = none →
      (extractNews doc).body = "" ∧ (extractNews doc).bodyText = "") ∧
    (∀ doc : HForest, querySelOne doc dateSel = none → (extractNews doc).date = "") ∧
    (∀ doc : HForest, querySelOne doc authorSel = none → (extractNews doc).author = "") ∧
    (∀ doc : HForest, querySelOne doc categorySel = none → (extractNews doc).category = "") ∧
    (∀ doc : HForest, querySelOne doc featuredImgSel = none → (extractNews doc).featuredImage = "") ∧
    (∀ doc : HForest, querySelAll doc contentImgsSel = [] → (extractNews doc).images = []) ∧
    (∀ doc : HForest, querySelAll doc staffCardsSel = [] → (extractStaffListing doc).members = []) ∧
    (∀ doc : HForest, querySelOne doc mainSel = none → (extractStaffListing doc).body = "") ∧
    (∀ doc : HForest, querySelOne doc h1Sel = none → (extractGenericPage doc).title = "") ∧
    (∀ doc : HForest, querySelOne doc genericBodySel = none →
      (extractGenericPage doc).body = "" ∧ (extractGenericPage doc).bodyText = "") ∧
    (∀ doc : HForest, querySelAll doc contentImgsSel = [] → (extractGenericPage doc).images = []) ∧
    (∀ doc : HForest, querySelOne doc sidebarSel = none → (extractGenericPage doc).sidebar = "") := by
  refine ⟨?_, ?_, ?_, ?_, ?_, ?_, ?_, ?_, ?_, ?_, ?_, ?_, ?_⟩ <;>
    intro doc h <;>
    simp [extractNews, extractStaffListing, extractGenericPage, optNodeText, optNodeHTML, h]

/-- C8 witness: the defaults at the empty document. -/
theorem extractors_default_on_missing_witness :
    (extractNews HForest.nil).title = "" ∧
    (extractStaffListing HForest.nil).members = [] ∧
    (extractGenericPage HForest.nil).sidebar = "" :=
  ⟨extractors_default_on_missing.1 HForest.nil rfl,
   extractors_default_on_missing.2.2.2.2.2.2.2.1 HForest.nil rfl,
   extractors_default_on_missing.2.2.2.2.2.2.2.2.2.2.2.2 HForest.nil rfl⟩

/-! ## Structured Field Parser (prepare-content.mjs, parseScholarshipFields) -/

structure RenewableInfo where
  isRenewable : Bool
  details : String
deriving DecidableEq

structure ScholarshipFields where
  eligibility : List String
  amount : String
  renewable : RenewableInfo
  deadline : String
  requirements : List String
  description : String
deriving DecidableEq

def fieldLabels : List String :=
  ["Eligibility", "Amount", "Renewable", "Deadline", "Requirements", "Apply"]

/-- The case-insensitive label-with-colon test at the start of a string. -/
def startsWithAnyLabelCI (ls : List String) (s : String) : Bool :=
  ls.any (fun l => lowerStartsWith (l ++ ":").toList s.toList)

/-- The regex matching a bare label with optional trailing colon. -/
def isFieldLabelText (s : String) : Bool :=
  fieldLabels.any (fun l => lowerS s = lowerS l || lowerS s = lowerS (l ++ ":"))

mutual
def collectTagNode (t : String) : HNode → List HNode
  | .text _ => []
  | .elem tg a cs => (if tg = t then [HNode.elem tg a cs] else []) ++ collectTagForest t cs
def collectTagForest (t : String) : HForest → List HNode
  | .nil => []
  | .cons n rest => collectTagNode t n ++ collectTagForest t rest
end

def hasFieldLabelEl (el : HNode) : Bool :=
  startsWithAnyLabelCI fieldLabels (jsTrim (textOfNode el)) ||
  (collectTagForest "strong" (childForest el)).any
    (fun s => isFieldLabelText (jsTrim (textOfNode s)))

/-- Does this character list start with strong-wrapped "Eligibility:" (with
optional whitespace), case-insensitively? -/
def matchStrongElig (l : List Char) : Bool :=
  if lowerStartsWith "<strong>".toList l then
    let l2 := (l.drop 8).dropWhile isWsChar
    if lowerStartsWith "eligibility:".toList l2 then
      let l3 := (l2.drop 12).dropWhile isWsChar
      lowerStartsWith "</strong>".toList l3
    else false
  else false

/-- The non-greedy split of the element HTML at the first strong Eligibility
label with at least one character before it (regex group 1 / group 2). -/
def findEligSplit : List Char → List Char → Option (List Char × List Char)
  | _, [] => none
  | acc, c :: rest =>
    if matchStrongElig (c :: rest) ∧ acc ≠ [] then some (acc.reverse, c :: rest)
    else findEligSplit (c :: acc) rest

/-- Remove one trailing br tag together with surrounding trailing whitespace
(the gi-flagged end-anchored regex replace). -/
def stripTrailBr (l : List Char) : List Char :=
  let t := l.reverse.dropWhile isWsChar
  match t with
  | '>' :: t2 =>
    let t3 := match t2 with | '/' :: r => r | _ => t2
    let t4 := t3.dropWhile isWsChar
    if lowerStartsWith "rb<".toList t4 then (t4.drop 3).reverse else l
  | _ => l

def processDescBefore (g1 : List Char) : Option String :=
  let descBefore := jsTrim (String.mk (stripTrailBr g1))
  if descBefore = "" then none
  else if startsWithL "<p>".toList descBefore.toList ∨ startsWithL "<p ".toList descBefore.toList then
    some (descBefore ++ "</p>")
  else some descBefore

def isScriptEl : HNode → Bool
  | .elem "script" _ _ => true
  | _ => false

/-- The description walk over the body children: accumulate element HTML until
the first field-label element, splitting that element at the Eligibility label
to keep its prose under the description. -/
def descWalk : List HNode → Bool → List String → List String
  | [], _, parts => parts.reverse
  | el :: rest, reachedFields, parts =>
    let hasLabel := hasFieldLabelEl el
    if hasLabel && !reachedFields then
      let parts2 :=
        match findEligSplit [] (renderNode el).toList with
        | some (g1, _) =>
          match processDescBefore g1 with
          | some d => d :: parts
          | none => parts
        | none => parts
      descWalk rest true parts2
    else if !reachedFields then
      if isScriptEl el then descWalk rest false parts
      else descWalk rest false (renderNode el :: parts)
    else descWalk rest true parts

def joinStrings : List String → String
  | [] => ""
  | s :: rest => s ++ joinStrings rest

/-! ### Per-label recovery helpers -/

def isTagIn (ts : List String) : HNode → Bool
  | .elem t _ _ => ts.contains t
  | .text _ => false

def closestAux (doc : HForest) (p : List Nat) (pred : HNode → Bool) : Nat → Option (List Nat)
  | 0 => none
  | k + 1 =>
    let q := p.take (k + 1)
    match nodeAtPath doc q with
    | some n => if pred n then some q else closestAux doc p pred k
    | none => closestAux doc p pred k

/-- jQuery closest: nearest ancestor-or-self path matching the predicate. -/
def closestPath (doc : HForest) (p : List Nat) (pred : HNode → Bool) : Option (List Nat) :=
  closestAux doc p pred p.length

def findSibFrom : HForest → Nat → Nat → (HNode → Bool) → Option (Nat × HNode)
  | .nil, _, _, _ => none
  | .cons n rest, i, start, pred =>
    if start ≤ i ∧ pred n then some (i, n)
    else findSibFrom rest (i + 1) start pred

/-- jQuery nextAll(sel).first(): the first following sibling matching. -/
def nextAllFirst (doc : HForest) (p : List Nat) (pred : HNode → Bool) : Option HNode :=
  match p.getLast? with
  | none => none
  | some idx =>
    match childrenAtPath doc p.dropLast with
    | none => none
    | some sibs => (findSibFrom sibs 0 (idx + 1) pred).map Prod.snd

def liTexts (listNode : HNode) : List String :=
  (collectTagForest "li" (childForest listNode)).map (fun li => jsTrim (textOfNode li))

def startsWithStr (pre s : String) : Bool := startsWithL pre.toList s.toList

/-- The case-insensitive anchored replace of a leading label and colon plus
following whitespace. -/
def stripLeadLabelCI (label : String) (s : String) : String :=
  if lowerStartsWith (label ++ ":").toList s.toList then
    String.mk ((s.toList.drop (label.length + 1)).dropWhile isWsChar)
  else s

/-- The end-anchored scrub of one trailing leaked label with optional colon
and surrounding whitespace. -/
def stripTrailLabels (ls : List String) (s : String) : String :=
  let t := trimRightL s.toList
  match ls.find? (fun l => lowerEndsWith (l ++ ":").toList t) with
  | some l => String.mk (trimRightL (t.take (t.length - (l.length + 1))))
  | none =>
    match ls.find? (fun l => lowerEndsWith l.toList t) with
    | some l => String.mk (trimRightL (t.take (t.length - l.length)))
    | none => s

def updateEligibility (content : HForest) (p : List Nat) (r : ScholarshipFields) :
    ScholarshipFields :=
  let parentOpt := closestPath content p (isTagIn ["p", "li", "div"])
  let nextList :=
    match parentOpt with
    | some pp => nextAllFirst content pp (isTagIn ["ul", "ol"])
    | none =>
      match closestPath content p (isTagIn ["p"]) with
      | some pp => nextAllFirst content pp (isTagIn ["ul", "ol"])
      | none => none
  let nextList :=
    match nextList with
    | some x => some x
    | none => nextAllFirst content p.dropLast (isTagIn ["ul", "ol"])
  match nextList with
  | some listNode => { r with eligibility := liTexts listNode }
  | none => r

def updateAmount (content : HForest) (p : List Nat) (r : ScholarshipFields) :
    ScholarshipFields :=
  match closestPath content p (isTagIn ["p"]) with
  | none => r
  | some pp =>
    match nodeAtPath content pp with
    | none => r
    | some parentNode =>
      let fullText := jsTrim (textOfNode parentNode)
      let afterLabel := jsTrim (stripLeadLabelCI "Amount" fullText)
      if afterLabel ≠ "" ∧ startsWithStr "Renewable" afterLabel = false ∧
          startsWithStr "Deadline" afterLabel = false then
        { r with amount := afterLabel }
      else
        match nextAllFirst content pp (isTagIn ["p"]) with
        | none => r
        | some nextP =>
          let nextText := jsTrim (textOfNode nextP)
          if startsWithAnyLabelCI ["Renewable", "Deadline", "Requirements", "Apply", "Eligibility"] nextText = false then
            { r with amount := nextText }
          else r

def updateRenewable (content : HForest) (p : List Nat) (r : ScholarshipFields) :
    ScholarshipFields :=
  match closestPath content p (isTagIn ["p"]) with
  | none => r
  | some pp =>
    match nodeAtPath content pp with
    | none => r
    | some parentNode =>
      let fullText := jsTrim (textOfNode parentNode)
      let afterLabel := jsTrim (stripLeadLabelCI "Renewable" fullText)
      let renewText :=
        if afterLabel = "" then
          match nextAllFirst content pp (isTagIn ["p"]) with
          | none => afterLabel
          | some nextP =>
            let nextText := jsTrim (textOfNode nextP)
            if startsWithAnyLabelCI ["Deadline", "Requirements", "Apply", "Amount", "Eligibility"] nextText = false then
              nextText
            else afterLabel
        else afterLabel
      let renewText :=
        jsTrim (stripTrailLabels ["Deadline", "Requirements", "Apply", "Amount", "Eligibility"] renewText)
      if renewText ≠ "" then
        { r with renewable := ⟨lowerStartsWith "yes".toList renewText.toList, renewText⟩ }
      else r

/-! ### Deadline recovery (last-occurrence rule) -/

def occursAtL (pat l : List Char) (i : Nat) : Bool := startsWithL pat (l.drop i)

def occIndices (pat l : List Char) : List Nat :=
  (List.range (l.length + 1)).filter (occursAtL pat l)

/-- Model of JS lastIndexOf restricted to found/not-found as an Option. -/
def lastIndexOfStr (pat s : String) : Option Nat := (occIndices pat.toList s.toList).getLast?

def countOccur (pat s : String) : Nat := (occIndices pat.toList s.toList).length

/-- The deadline recovery on one scanned paragraph: take the text after the
last occurrence of the exact label "Deadline:" (else strip a leading
case-insensitive label), scrub one trailing leaked label, and fall back to
the next paragraph only when nothing usable remains. -/
def deadlineFromParagraph (prev fullText : String) (nextP : Option String) : String :=
  let afterLabel :=
    match lastIndexOfStr "Deadline:" fullText with
    | some i => jsTrim (String.mk (fullText.toList.drop (i + 9)))
    | none => jsTrim (stripLeadLabelCI "Deadline" fullText)
  let afterLabel :=
    jsTrim (stripTrailLabels ["Requirements", "Apply", "Amount", "Renewable", "Eligibility"] afterLabel)
  if afterLabel ≠ "" ∧ startsWithAnyLabelCI ["Requirements", "Apply"] afterLabel = false then
    afterLabel
  else
    match nextP with
    | none => prev
    | some nextText =>
      if startsWithAnyLabelCI ["Requirements", "Apply", "Amount", "Renewable", "Eligibility"] nextText = false then
        nextText
      else prev

def updateDeadline (content : HForest) (p : List Nat) (r : ScholarshipFields) :
    ScholarshipFields :=
  match closestPath content p (isTagIn ["p"]) with
  | none => r
  | some pp =>
    match nodeAtPath content pp with
    | none => r
    | some parentNode =>
      let fullText := jsTrim (textOfNode parentNode)
      let nextP := (nextAllFirst content pp (isTagIn ["p"])).map (fun n => jsTrim (textOfNode n))
      { r with deadline := deadlineFromParagraph r.deadline fullText nextP }

def updateRequirements (content : HForest) (p : List Nat) (r : ScholarshipFields) :
    ScholarshipFields :=
  let nextList :=
    match closestPath content p (isTagIn ["p"]) with
    | some pp => nextAllFirst content pp (isTagIn ["ul", "ol"])
    | none => nextAllFirst content p.dropLast (isTagIn ["ul", "ol"])
  match nextList with
  | some listNode => { r with requirements := liTexts listNode }
  | none => r

def dropColonSuffix (s : String) : String :=
  if endsWithL [':'] s.toList then String.mk s.toList.dropLast else s

def applyStrongField (content : HForest) (r : ScholarshipFields)
    (pn : List Nat × HNode) : ScholarshipFields :=
  let label := lowerS (dropColonSuffix (jsTrim (textOfNode pn.2)))
  if label = "eligibility" then updateEligibility content pn.1 r
  else if label = "amount" then updateAmount content pn.1 r
  else if label = "renewable" then updateRenewable content pn.1 r
  else if label = "deadline" then updateDeadline content pn.1 r
  else if label = "requirements" then updateRequirements content pn.1 r
  else r

def isStrongNode : HNode → Bool
  | .elem "strong" _ _ => true
  | _ => false

/-- Embedding of parseScholarshipFields from prepare-content.mjs; none models
the bare-object return on empty input or missing main-content section. -/
def parseScholarshipFields (rawBody : String) : Option ScholarshipFields :=
  if rawBody = "" then none
  else
    let doc := loadDoc rawBody
    match querySelOne doc mainContentSel with
    | none => none
    | some (_, mainNode) =>
      let content := loadDoc (innerHTMLOf mainNode)
      let bodyChildren :=
        match querySelOne content [[selTag "body"]] with
        | some (_, b) => (childForest b).toList
        | none => []
      let descStr := jsTrim (joinStrings (descWalk bodyChildren false []))
      let base : ScholarshipFields := ⟨[], "", ⟨false, ""⟩, "", [], descStr⟩
      let strongs := (allPaths content).filter (fun pn => isStrongNode pn.2)
      some (strongs.foldl (applyStrongField content) base)

/-! ## Claim C1: structured-field round trip -/

def claimBodyHTML : String :=
  "<p>Intro text.<br><br><strong>Eligibility:</strong></p><ul><li>GPA 3.0</li><li>Resident</li></ul><p><strong>Amount:</strong> $1,000</p><p><strong>Deadline:</strong> March 1</p>"

def wrappedBodyHTML : String :=
  "<section class=\"main-content\">" ++ claimBodyHTML ++ "</section>"

set_option maxHeartbeats 4000000 in
set_option maxRecDepth 10000 in
/-- C1 counterexample. On the claim's body HTML exactly as given, the parser
returns the bare empty object (modelled none): it first selects
section.main-content, which the input does not contain, so no record with the
claimed description, eligibility, amount and deadline is produced. -/
theorem parseScholarshipFields_claim_input_empty :
    parseScholarshipFields claimBodyHTML = none := by
  decide

set_option maxHeartbeats 8000000 in
set_option maxRecDepth 10000 in
/-- C1 (amended). Wrapped in the section.main-content container the parser
actually reads, the same body HTML yields a record whose description contains
"Intro text.", whose eligibility is ["GPA 3.0", "Resident"], whose amount is
"$1,000" and whose deadline is "March 1". -/
theorem parseScholarshipFields_roundtrip :
    ∃ r, parseScholarshipFields wrappedBodyHTML = some r ∧
      containsL "Intro text.".toList r.description.toList = true ∧
      r.eligibility = ["GPA 3.0", "Resident"] ∧
      r.amount = "$1,000" ∧
      r.deadline = "March 1" :=
  ⟨⟨["GPA 3.0", "Resident"], "$1,000", ⟨false, ""⟩, "March 1", [], "<p>Intro text.<br></p>"⟩,
   by decide, by decide, rfl, rfl, rfl⟩

/-! ## Claim C7: deadline last-occurrence recovery -/

lemma getLast?_mem_list {α : Type} {l : List α} {a : α} (h : l.getLast? = some a) :
    a ∈ l := by
  have hx : a ∈ l.getLast? := by rw [h]; rfl
  obtain ⟨hne, heq⟩ := List.mem_getLast?_eq_getLast hx
  rw [heq]
  exact List.getLast_mem hne

lemma occursAt_le_length {pat l : List Char} {j : Nat} (hp : pat ≠ [])
    (h : occursAtL pat l j = true) : j ≤ l.length := by
  by_contra hlt
  push_neg at hlt
  have hdrop : l.drop j = [] := List.drop_eq_nil_of_le (le_of_lt hlt)
  rw [occursAtL, hdrop] at h
  cases pat with
  | nil => exact hp rfl
  | cons a as => simp [startsWithL] at h

lemma mem_occIndices {pat l : List Char} {j : Nat} (hp : pat ≠ []) :
    j ∈ occIndices pat l ↔ occursAtL pat l j = true := by
  unfold occIndices
  rw [List.mem_filter, List.mem_range]
  constructor
  · exact fun h => h.2
  · intro h
    exact ⟨Nat.lt_succ_of_le (occursAt_le_length hp h), h⟩

lemma pairwise_occIndices (pat l : List Char) :
    List.Pairwise (· < ·) (occIndices pat l) :=
  List.Pairwise.filter _ (List.pairwise_lt_range _)

lemma getLast?_max : ∀ (L : List Nat), List.Pairwise (· < ·) L →
    ∀ x m, x ∈ L → L.getLast? = some m → x ≤ m := by
  intro L
  induction L with
  | nil =>
    intro _ x m hx
    cases hx
  | cons a t ih =>
    intro hL x m hx hm
    cases t with
    | nil =>
      rcases List.mem_singleton.mp hx with rfl
      have h2 : some x = some m := by simpa [List.getLast?] using hm
      exact le_of_eq (Option.some.inj h2)
    | cons b t2 =>
      have hm2 : (b :: t2).getLast? = some m := by
        rw [← List.getLast?_cons_cons]
        exact hm
      have hpair := List.pairwise_cons.mp hL
      rcases List.mem_cons.mp hx with rfl | hx2
      · exact le_of_lt (hpair.1 m (getLast?_mem_list hm2))
      · exact ih hpair.2 x m hx2 hm2

lemma countOccur_pos_getLast {pat s : String} (h1 : 1 ≤ countOccur pat s) :
    ∃ i, lastIndexOfStr pat s = some i := by
  unfold countOccur at h1
  unfold lastIndexOfStr
  cases hL : occIndices pat.toList s.toList with
  | nil =>
    rw [hL] at h1
    simp at h1
  | cons a t =>
    exact ⟨_, List.getLast?_eq_getLast_of_ne_nil (by simp)⟩

/-- C7. When the exact label "Deadline:" occurs more than once in the scanned
paragraph text, the recovery takes the text following the last occurrence
(the returned index is an occurrence and bounds every occurrence) and scrubs
a trailing leaked field label from it; whenever that recovered text is
non-empty and is not itself a Requirements/Apply label, it is the deadline
the parser records. -/
theorem deadline_last_occurrence (t : String) (h2 : 2 ≤ countOccur "Deadline:" t) :
    ∃ i, lastIndexOfStr "Deadline:" t = some i ∧
      occursAtL "Deadline:".toList t.toList i = true ∧
      (∀ j, occursAtL "Deadline:".toList t.toList j = true → j ≤ i) ∧
      (∀ prev next,
        jsTrim (stripTrailLabels ["Requirements", "Apply", "Amount", "Renewable", "Eligibility"]
          (jsTrim (String.mk (t.toList.drop (i + 9))))) ≠ "" →
        startsWithAnyLabelCI ["Requirements", "Apply"]
          (jsTrim (stripTrailLabels ["Requirements", "Apply", "Amount", "Renewable", "Eligibility"]
            (jsTrim (String.mk (t.toList.drop (i + 9)))))) = false →
        deadlineFromParagraph prev t next =
          jsTrim (stripTrailLabels ["Requirements", "Apply", "Amount", "Renewable", "Eligibility"]
            (jsTrim (String.mk (t.toList.drop (i + 9)))))) := by
  obtain ⟨i, hi⟩ := countOccur_pos_getLast (le_trans (by omega) h2)
  have himem : i ∈ occIndices "Deadline:".toList t.toList := by
    apply getLast?_mem_list
    unfold lastIndexOfStr at hi
    exact hi
  refine ⟨i, hi, (mem_occIndices (by decide)).mp himem, ?_, ?_⟩
  · intro j hj
    exact getLast?_max _ (pairwise_occIndices _ _) j i
      ((mem_occIndices (by decide)).mpr hj)
      (by unfold lastIndexOfStr at hi; exact hi)
  · intro prev next hne hstart
    unfold deadlineFromParagraph
    rw [hi]
    dsimp only
    rw [if_pos ⟨hne, hstart⟩]

/-- C7 witness: a paragraph where "Deadline:" leaked once before the real
deadline and an Amount label leaked after it; the recovery takes the text
after the second occurrence and scrubs the trailing label. -/
theorem deadline_last_occurrence_witness :
    deadlineFromParagraph "" "Deadline: TBD Deadline: March 1 Amount:" none = "March 1" := by
  obtain ⟨i, h1, _, _, h4⟩ :=
    deadline_last_occurrence "Deadline: TBD Deadline: March 1 Amount:" (by decide)
  have hi : i = 14 := by
    have hc : lastIndexOfStr "Deadline:" "Deadline: TBD Deadline: March 1 Amount:" = some 14 := by
      decide
    rw [hc] at h1
    exact (Option.some.inj h1).symm
  subst hi
  have hres := h4 "" none (by decide) (by decide)
  rw [hres]
  decide
